import Mathlib

/-!
Shallow embedding of the `markov` crate (`src/lib.rs`): a first-order Markov
chain `Chain<T>` stored as `HashMap<Option<Rc<T>>, HashMap<Option<Rc<T>>, uint>>`.
`HashMap`s are modelled as association lists (first occurrence wins, new keys
appended, updates in place), `Option<Rc<T>>` states as `Option T` (`none` is
the start/end sentinel), and the ambient random generator as an injected
stream `draws : Nat → Nat` whose i-th value is reduced modulo the distribution
total to model `rng.gen_range(0, sum)`.  The `generate` loop, which has no
termination bound in the source, takes a fuel parameter; running out of fuel
is reported as a distinct outcome.  A panic of the source (an assertion
failure inside `gen_range` when `sum == 0`, the `unreachable!` at the end of
`States::next`, or a `HashMap` index on an absent key) is the `crash` outcome.
-/

namespace Markov

/-- A chain state: `none` is the sentinel marking start and end of sequences,
`some t` is a fed token (the embedding ignores `Rc` sharing: structurally
equal tokens are equal). -/
abbrev State (T : Type) := Option T

/-- A frequency distribution `HashMap<Option<Rc<T>>, uint>`, modelled as an
association list from successor state to count. -/
abbrev Dist (T : Type) := List (State T × Nat)

/-- The transition table `HashMap<Option<Rc<T>>, HashMap<Option<Rc<T>>, uint>>`,
modelled as an association list from state to distribution. -/
abbrev ChainMap (T : Type) := List (State T × Dist T)

/-- Association-list lookup: the value of the first entry whose key equals `s`. -/
def alookup {α β : Type} [DecidableEq α] : List (α × β) → α → Option β
  | [], _ => none
  | (k, v) :: rest, s => if k = s then some v else alookup rest s

/-- Association-list in-place update of the first entry whose key equals `s`;
no entry is added or removed (an absent key is a no-op). -/
def aupdate {α β : Type} [DecidableEq α] : List (α × β) → α → (β → β) → List (α × β)
  | [], _, _ => []
  | (k, v) :: rest, s, f =>
      if k = s then (k, f v) :: rest else (k, v) :: aupdate rest s f

/-- `Chain::new`: the map holding the single entry `None ↦ {}`. -/
def chainNew (T : Type) : ChainMap T := [(none, [])]

/-- `Chain::is_empty`: `self.map[None].is_empty()`.  The source indexes the
map, which panics if `None` is absent; on every reachable chain `None` is
present, and the embedding defaults the lookup to the empty distribution. -/
def is_empty {T : Type} [DecidableEq T] (c : ChainMap T) : Bool :=
  ((alookup c none).getD []).isEmpty

/-- `States::add` (`HashMap<Option<Rc<T>>, uint>::add`): increment the count
of `token`, inserting it with count 1 when absent (the `Occupied`/`Vacant`
entry match of the source). -/
def distAdd {T : Type} [DecidableEq T] (d : Dist T) (token : State T) : Dist T :=
  if (alookup d token).isSome then aupdate d token (· + 1) else d ++ [(token, 1)]

/-- The total count of a distribution, as the source computes it:
`let mut sum = 0; for &value in self.values() { sum += value; }`. -/
def distTotal {T : Type} (d : Dist T) : Nat :=
  d.foldl (fun s p => s + p.2) 0

/-- The cumulative scan of `States::next`: accumulate counts from `acc` and
return the key of the first entry whose running sum exceeds `cap`; `none`
models falling off the loop into the `unreachable!` panic. -/
def scanFrom {T : Type} : Dist T → Nat → Nat → Option (State T)
  | [], _, _ => none
  | (k, v) :: rest, acc, cap =>
      if acc + v > cap then some k else scanFrom rest (acc + v) cap

/-- `States::next`: draw `cap = gen_range(0, sum)` and run the cumulative
scan.  When `sum == 0` the source panics (`gen_range` asserts `low < high`;
were the draw to return 0, the scan of an all-zero distribution would reach
the `unreachable!`), modelled by `Except.error ()`; the same error also
models the `unreachable!` fall-through of the scan. -/
def statesNext {T : Type} (d : Dist T) (r : Nat) : Except Unit (State T) :=
  let sum := distTotal d
  if sum = 0 then Except.error ()
  else
    match scanFrom d 0 (r % sum) with
    | some k => Except.ok k
    | none => Except.error ()

/-- One step of the token-interning pass of `Chain::feed`:
`if !self.map.contains_key(&Some(rc)) { self.map.insert(Some(rc), HashMap::new()); }`. -/
def ensureStep {T : Type} [DecidableEq T] (c : ChainMap T) (t : T) : ChainMap T :=
  if (alookup c (some t)).isSome then c else c ++ [(some t, ([] : Dist T))]

/-- The token-interning pass of `Chain::feed`: walking `tokens` in order,
insert `Some t ↦ {}` for each token not yet a key of the map. -/
def ensurePhase {T : Type} [DecidableEq T] (c : ChainMap T) (tokens : List T) : ChainMap T :=
  tokens.foldl ensureStep c

/-- The augmented sequence `[None, Some t_1, ..., Some t_n, None]` that
`Chain::feed` builds in `toks`. -/
def augmented {T : Type} (tokens : List T) : List (State T) :=
  none :: (tokens.map some ++ [none])

/-- `(&mut self.map[p[0]]).add(p[1])`: bump the count of `to` in the
distribution of `from`.  The source's map index panics when `from` is
absent; the embedding leaves the map unchanged in that (unreachable on fed
chains) case. -/
def recordTransition {T : Type} [DecidableEq T] (c : ChainMap T) (f t : State T) : ChainMap T :=
  aupdate c f (fun d => distAdd d t)

/-- The `for p in toks.windows(2)` loop of `Chain::feed` over a pair list. -/
def recPhase {T : Type} [DecidableEq T] (c : ChainMap T) (ps : List (State T × State T)) :
    ChainMap T :=
  ps.foldl (fun m p => recordTransition m p.1 p.2) c

/-- `Chain::feed`: return unchanged on an empty input, otherwise intern every
token, then record a transition for every window of two consecutive states
of the augmented sequence. -/
def feed {T : Type} [DecidableEq T] (c : ChainMap T) (tokens : List T) : ChainMap T :=
  if tokens.isEmpty then c
  else
    recPhase (ensurePhase c tokens)
      ((augmented tokens).zip (augmented tokens).tail)

/-- Outcome of a `generate` walk: a finished token list, a source panic, or
fuel exhaustion of the embedding (the source loop has no bound). -/
inductive GenRes (T : Type) where
  | ok (l : List T)
  | crash
  | outOfFuel
  deriving DecidableEq

/-- The `loop` of `Chain::generate`: look up the current state's distribution
(a missing key is a map-index panic), sample a successor with the i-th draw,
stop on the sentinel, otherwise push the token and continue. -/
def genLoop {T : Type} [DecidableEq T] :
    Nat → (Nat → Nat) → Nat → ChainMap T → State T → List T → GenRes T
  | 0, _, _, _, _, _ => GenRes.outOfFuel
  | Nat.succ fl, draws, i, c, curs, acc =>
      match alookup c curs with
      | none => GenRes.crash
      | some d =>
          match statesNext d (draws i) with
          | Except.error _ => GenRes.crash
          | Except.ok none => GenRes.ok acc
          | Except.ok (some t) => genLoop fl draws (i + 1) c (some t) (acc ++ [t])

/-- `Chain::generate`: walk from the sentinel with an empty accumulator. -/
def generate {T : Type} [DecidableEq T] (c : ChainMap T) (fuel : Nat) (draws : Nat → Nat) :
    GenRes T :=
  genLoop fuel draws 0 c none []

/-- `Chain::generate_from_token`: return `[]` at once when `Some token` is not
a key of the map (lookup only, nothing inserted), otherwise walk from
`Some token` with the accumulator seeded with `token`. -/
def generate_from_token {T : Type} [DecidableEq T] (c : ChainMap T) (fuel : Nat)
    (draws : Nat → Nat) (token : T) : GenRes T :=
  if (alookup c (some token)).isSome then genLoop fuel draws 0 c (some token) [token]
  else GenRes.ok []

/-- `str.split_str(" ")` of the source on a list of characters: split at every
space, keeping empty pieces; the empty input yields `[[]]`. -/
def splitSpaceAux : List Char → List Char → List (List Char)
  | [], acc => [acc.reverse]
  | ch :: rest, acc =>
      if ch = ' ' then acc.reverse :: splitSpaceAux rest [] else splitSpaceAux rest (ch :: acc)

/-- `string.split_str(" ").map(|s| s.to_owned()).collect()` of `feed_str`. -/
def splitSpace (s : String) : List String :=
  (splitSpaceAux s.data []).map (fun l => String.mk l)

/-- `Chain::feed_str`: feed the pieces of the input split on single spaces. -/
def feed_str (c : ChainMap String) (s : String) : ChainMap String :=
  feed c (splitSpace s)

/-- Number of occurrences of the consecutive pair `(a, b)` in `l`. -/
def pairCount {T : Type} [DecidableEq T] (l : List (State T)) (a b : State T) : Nat :=
  (l.zip l.tail).countP (fun p => decide (p.1 = a) && decide (p.2 = b))

/-- The recorded count of the transition `a → b`: 0 when `a` is not a key or
`b` is not in `a`'s distribution. -/
def transCount {T : Type} [DecidableEq T] (c : ChainMap T) (a b : State T) : Nat :=
  match alookup c a with
  | none => 0
  | some d => (alookup d b).getD 0

/-- The chains reachable through the public contract: `Chain::new` followed by
any sequence of `feed` calls. -/
inductive Reachable {T : Type} [DecidableEq T] : ChainMap T → Prop where
  | new : Reachable (chainNew T)
  | feed {c : ChainMap T} (tokens : List T) : Reachable c → Reachable (feed c tokens)

/-- The chain of the crate's tests: `feed([3,5,10])` then `feed([5,12])`. -/
def chainA : ChainMap Nat := feed (feed (chainNew Nat) [3, 5, 10]) [5, 12]

/-! ### Generic sampling lemmas -/

theorem genLoop_succ_eq {T : Type} [DecidableEq T] (fl : Nat) (draws : Nat → Nat) (i : Nat)
    (c : ChainMap T) (s : State T) (acc : List T) (d : Dist T) (h : alookup c s = some d) :
    genLoop (fl + 1) draws i c s acc =
      match statesNext d (draws i) with
      | Except.error _ => GenRes.crash
      | Except.ok none => GenRes.ok acc
      | Except.ok (some t) => genLoop fl draws (i + 1) c (some t) (acc ++ [t]) := by
  simp [genLoop, h]

theorem statesNext_single {T : Type} (k : State T) (r : Nat) :
    statesNext [(k, 1)] r = Except.ok k := by
  simp [statesNext, distTotal, scanFrom, Nat.mod_one]

theorem statesNext_pair {T : Type} (k₁ k₂ : State T) (r : Nat) :
    statesNext [(k₁, 1), (k₂, 1)] r = Except.ok (if r % 2 = 0 then k₁ else k₂) := by
  have htot : distTotal [(k₁, 1), (k₂, 1)] = 2 := by simp [distTotal]
  rcases Nat.mod_two_eq_zero_or_one r with h | h <;>
    simp [statesNext, htot, scanFrom, h]

/-! ### The test chain `feed([3,5,10]).feed([5,12])` -/

theorem chainA_lookup_none :
    alookup chainA none = some [(some 3, 1), (some 5, 1)] := by decide

theorem chainA_lookup_3 : alookup chainA (some 3) = some [(some 5, 1)] := by decide

theorem chainA_lookup_5 :
    alookup chainA (some 5) = some [(some 10, 1), (some 12, 1)] := by decide

theorem chainA_lookup_10 : alookup chainA (some 10) = some [(none, 1)] := by decide

theorem chainA_lookup_12 : alookup chainA (some 12) = some [(none, 1)] := by decide

theorem chainA_walk_10 (fl : Nat) (draws : Nat → Nat) (i : Nat) (acc : List Nat) :
    genLoop fl draws i chainA (some 10) acc = GenRes.outOfFuel ∨
      genLoop fl draws i chainA (some 10) acc = GenRes.ok acc := by
  cases fl with
  | zero => exact Or.inl rfl
  | succ n =>
      right
      rw [genLoop_succ_eq n draws i chainA (some 10) acc _ chainA_lookup_10,
        statesNext_single]

theorem chainA_walk_12 (fl : Nat) (draws : Nat → Nat) (i : Nat) (acc : List Nat) :
    genLoop fl draws i chainA (some 12) acc = GenRes.outOfFuel ∨
      genLoop fl draws i chainA (some 12) acc = GenRes.ok acc := by
  cases fl with
  | zero => exact Or.inl rfl
  | succ n =>
      right
      rw [genLoop_succ_eq n draws i chainA (some 12) acc _ chainA_lookup_12,
        statesNext_single]

theorem chainA_walk_5 (fl : Nat) (draws : Nat → Nat) (i : Nat) (acc : List Nat) :
    genLoop fl draws i chainA (some 5) acc = GenRes.outOfFuel ∨
      genLoop fl draws i chainA (some 5) acc = GenRes.ok (acc ++ [10]) ∨
      genLoop fl draws i chainA (some 5) acc = GenRes.ok (acc ++ [12]) := by
  cases fl with
  | zero => exact Or.inl rfl
  | succ n =>
      rw [genLoop_succ_eq n draws i chainA (some 5) acc _ chainA_lookup_5, statesNext_pair]
      rcases Nat.mod_two_eq_zero_or_one (draws i) with h | h
      · rw [h, if_pos rfl]
        rcases chainA_walk_10 n draws (i + 1) (acc ++ [10]) with h' | h'
        · exact Or.inl h'
        · exact Or.inr (Or.inl h')
      · rw [h, if_neg Nat.one_ne_zero]
        rcases chainA_walk_12 n draws (i + 1) (acc ++ [12]) with h' | h'
        · exact Or.inl h'
        · exact Or.inr (Or.inr h')

theorem chainA_walk_3 (fl : Nat) (draws : Nat → Nat) (i : Nat) (acc : List Nat) :
    genLoop fl draws i chainA (some 3) acc = GenRes.outOfFuel ∨
      genLoop fl draws i chainA (some 3) acc = GenRes.ok (acc ++ [5, 10]) ∨
      genLoop fl draws i chainA (some 3) acc = GenRes.ok (acc ++ [5, 12]) := by
  cases fl with
  | zero => exact Or.inl rfl
  | succ n =>
      rw [genLoop_succ_eq n draws i chainA (some 3) acc _ chainA_lookup_3, statesNext_single]
      have := chainA_walk_5 n draws (i + 1) (acc ++ [5])
      simpa [List.append_assoc] using this

theorem chainA_walk_start (fl : Nat) (draws : Nat → Nat) (i : Nat) (acc : List Nat) :
    genLoop fl draws i chainA none acc = GenRes.outOfFuel ∨
      genLoop fl draws i chainA none acc = GenRes.ok (acc ++ [3, 5, 10]) ∨
      genLoop fl draws i chainA none acc = GenRes.ok (acc ++ [3, 5, 12]) ∨
      genLoop fl draws i chainA none acc = GenRes.ok (acc ++ [5, 10]) ∨
      genLoop fl draws i chainA none acc = GenRes.ok (acc ++ [5, 12]) := by
  cases fl with
  | zero => exact Or.inl rfl
  | succ n =>
      rw [genLoop_succ_eq n draws i chainA none acc _ chainA_lookup_none, statesNext_pair]
      rcases Nat.mod_two_eq_zero_or_one (draws i) with h | h
      · rw [h, if_pos rfl]
        rcases chainA_walk_3 n draws (i + 1) (acc ++ [3]) with h' | h' | h'
        · exact Or.inl h'
        · exact Or.inr (Or.inl (by simpa [List.append_assoc] using h'))
        · exact Or.inr (Or.inr (Or.inl (by simpa [List.append_assoc] using h')))
      · rw [h, if_neg Nat.one_ne_zero]
        rcases chainA_walk_5 n draws (i + 1) (acc ++ [5]) with h' | h' | h'
        · exact Or.inl h'
        · exact Or.inr (Or.inr (Or.inr (Or.inl (by simpa [List.append_assoc] using h'))))
        · exact Or.inr (Or.inr (Or.inr (Or.inr (by simpa [List.append_assoc] using h'))))

theorem genLoop_succ_none {T : Type} [DecidableEq T] (fl : Nat) (draws : Nat → Nat) (i : Nat)
    (c : ChainMap T) (s : State T) (acc : List T) (h : alookup c s = none) :
    genLoop (fl + 1) draws i c s acc = GenRes.crash := by
  simp [genLoop, h]

/-- The accumulator is a prefix of every list a `genLoop` walk completes. -/
theorem genLoop_ok_prefix {T : Type} [DecidableEq T] (fl : Nat) (draws : Nat → Nat) :
    ∀ (i : Nat) (curs : State T) (acc l : List T) (c : ChainMap T),
      genLoop fl draws i c curs acc = GenRes.ok l → ∃ t, l = acc ++ t := by
  induction fl with
  | zero =>
      intro i curs acc l c h
      exact absurd h (by simp [genLoop])
  | succ n ih =>
      intro i curs acc l c h
      cases hd : alookup c curs with
      | none =>
          rw [genLoop_succ_none n draws i c curs acc hd] at h
          exact absurd h (by simp)
      | some d =>
          rw [genLoop_succ_eq n draws i c curs acc d hd] at h
          cases hn : statesNext d (draws i) with
          | error e =>
              rw [hn] at h
              exact absurd h (by simp)
          | ok s' =>
              cases s' with
              | none =>
                  rw [hn] at h
                  exact ⟨[], by simpa using (GenRes.ok.inj h).symm⟩
              | some t =>
                  rw [hn] at h
                  obtain ⟨t', ht'⟩ := ih (i + 1) (some t) (acc ++ [t]) l c h
                  exact ⟨t :: t', by simpa [List.append_assoc] using ht'⟩

/-! ### Sampler lemmas -/

/-- Shifting the start value of the source's summation loop. -/
theorem foldl_add_shift {T : Type} (d : Dist T) :
    ∀ a : Nat, d.foldl (fun s p => s + p.2) a = a + d.foldl (fun s p => s + p.2) 0 := by
  induction d with
  | nil => simp
  | cons p rest ih =>
      intro a
      simp only [List.foldl_cons]
      rw [ih (a + p.2), ih (0 + p.2)]
      omega

theorem distTotal_cons {T : Type} (k : State T) (v : Nat) (rest : Dist T) :
    distTotal ((k, v) :: rest) = v + distTotal rest := by
  show List.foldl _ (0 + v) rest = _
  rw [foldl_add_shift rest (0 + v)]
  simp [distTotal]

/-- Sum of the first `n` counts of a distribution, in iteration order. -/
def prefixTotal {T : Type} (d : Dist T) (n : Nat) : Nat :=
  distTotal (d.take n)

theorem prefixTotal_cons_succ {T : Type} (k : State T) (v : Nat) (rest : Dist T) (n : Nat) :
    prefixTotal ((k, v) :: rest) (n + 1) = v + prefixTotal rest n := by
  simp [prefixTotal, distTotal_cons]

/-- The cumulative scan started at running sum `acc` finds the first entry
whose cumulative sum exceeds `cap`, whenever `cap` lies below the grand
total. -/
theorem scanFrom_spec {T : Type} :
    ∀ (d : Dist T) (acc cap : Nat), acc ≤ cap → cap < acc + distTotal d →
      ∃ i, ∃ hi : i < d.length, scanFrom d acc cap = some (d.get ⟨i, hi⟩).1 ∧
        cap < acc + prefixTotal d (i + 1) ∧ ∀ j, j < i → acc + prefixTotal d (j + 1) ≤ cap := by
  intro d
  induction d with
  | nil =>
      intro acc cap h1 h2
      simp only [distTotal, List.foldl_nil] at h2
      omega
  | cons p rest ih =>
      intro acc cap h1 h2
      obtain ⟨k, v⟩ := p
      by_cases hv : acc + v > cap
      · refine ⟨0, by simp, ?_, ?_, fun j hj => absurd hj (Nat.not_lt_zero j)⟩
        · simp [scanFrom, hv]
        · simp only [Nat.zero_add]
          have h1' : prefixTotal ((k, v) :: rest) 1 = v + prefixTotal rest 0 :=
            prefixTotal_cons_succ k v rest 0
          have h0 : prefixTotal rest 0 = 0 := rfl
          omega
      · have hv' : acc + v ≤ cap := by omega
        have h2' : cap < (acc + v) + distTotal rest := by
          rw [distTotal_cons] at h2
          omega
        obtain ⟨i, hi, hscan, hlt, hle⟩ := ih (acc + v) cap (by omega) h2'
        refine ⟨i + 1, by simpa using Nat.succ_lt_succ hi, ?_, ?_, ?_⟩
        · rw [scanFrom, if_neg hv]
          simpa using hscan
        · rw [prefixTotal_cons_succ]
          omega
        · intro j hj
          cases j with
          | zero =>
              simp only [Nat.zero_add]
              have h1' : prefixTotal ((k, v) :: rest) 1 = v + prefixTotal rest 0 :=
                prefixTotal_cons_succ k v rest 0
              have h0 : prefixTotal rest 0 = 0 := rfl
              omega
          | succ j' =>
              have := hle j' (by omega)
              rw [prefixTotal_cons_succ]
              omega

/-- A scan that succeeds returns a key of the distribution. -/
theorem scanFrom_mem {T : Type} :
    ∀ (d : Dist T) (acc cap : Nat) (k : State T),
      scanFrom d acc cap = some k → ∃ v, (k, v) ∈ d := by
  intro d
  induction d with
  | nil => intro acc cap k h; exact absurd h (by simp [scanFrom])
  | cons p rest ih =>
      intro acc cap k h
      rw [scanFrom] at h
      by_cases hv : acc + p.2 > cap
      · rw [if_pos hv] at h
        exact ⟨p.2, by rw [← Option.some.inj h]; exact List.mem_cons_self _ _⟩
      · rw [if_neg hv] at h
        obtain ⟨v, hm⟩ := ih (acc + p.2) cap k h
        exact ⟨v, List.mem_cons_of_mem _ hm⟩

/-- A successful sample is a key of the distribution. -/
theorem statesNext_mem {T : Type} (d : Dist T) (r : Nat) (k : State T)
    (h : statesNext d r = Except.ok k) : ∃ v, (k, v) ∈ d := by
  rw [statesNext] at h
  by_cases h0 : distTotal d = 0
  · rw [if_pos h0] at h
    exact absurd h (by simp)
  · rw [if_neg h0] at h
    cases hs : scanFrom d 0 (r % distTotal d) with
    | none => rw [hs] at h; exact absurd h (by simp)
    | some k' =>
        rw [hs] at h
        exact Option.some.inj (congrArg some (Except.ok.inj h)) ▸ scanFrom_mem d 0 _ k' hs

/-! ### Association-list lemmas -/

theorem alookup_aupdate {α β : Type} [DecidableEq α] (m : List (α × β)) (k s : α) (f : β → β) :
    alookup (aupdate m k f) s = if k = s then (alookup m k).map f else alookup m s := by
  induction m with
  | nil => by_cases h : k = s <;> simp [alookup, aupdate, h]
  | cons p rest ih =>
      obtain ⟨k', v⟩ := p
      by_cases h1 : k' = k
      · subst h1
        by_cases h2 : k' = s <;> simp [alookup, aupdate, h2]
      · by_cases h2 : k' = s
        · subst h2
          have hks : ¬k = k' := fun h => h1 h.symm
          simp [alookup, aupdate, h1, hks]
        · simp [alookup, aupdate, h1, h2, ih]

theorem isSome_alookup_aupdate {α β : Type} [DecidableEq α] (m : List (α × β)) (k s : α)
    (f : β → β) : (alookup (aupdate m k f) s).isSome = (alookup m s).isSome := by
  rw [alookup_aupdate]
  by_cases h : k = s
  · subst h
    simp
  · rw [if_neg h]

theorem alookup_append_of_isSome {α β : Type} [DecidableEq α] (m l : List (α × β)) (s : α)
    (h : (alookup m s).isSome = true) : alookup (m ++ l) s = alookup m s := by
  induction m with
  | nil => simp [alookup] at h
  | cons p rest ih =>
      by_cases hp : p.1 = s
      · simp [alookup, hp]
      · rw [alookup, if_neg hp] at h
        simp [alookup, hp, ih h]

theorem alookup_append_of_none {α β : Type} [DecidableEq α] (m l : List (α × β)) (s : α)
    (h : alookup m s = none) : alookup (m ++ l) s = alookup l s := by
  induction m with
  | nil => simp [alookup]
  | cons p rest ih =>
      by_cases hp : p.1 = s
      · rw [alookup, if_pos hp] at h
        exact absurd h (by simp)
      · rw [alookup, if_neg hp] at h
        simp [alookup, hp, ih h]

theorem mem_aupdate {α β : Type} [DecidableEq α] (m : List (α × β)) (k : α) (f : β → β) :
    ∀ p ∈ aupdate m k f, p ∈ m ∨ ∃ v, (p.1, v) ∈ m ∧ p.2 = f v := by
  induction m with
  | nil => simp [aupdate]
  | cons q rest ih =>
      intro p hp
      obtain ⟨k', v⟩ := q
      by_cases h1 : k' = k
      · rw [aupdate, if_pos h1] at hp
        rcases List.mem_cons.mp hp with h | h
        · exact Or.inr ⟨v, by simp [h], by simp [h]⟩
        · exact Or.inl (List.mem_cons_of_mem _ h)
      · rw [aupdate, if_neg h1] at hp
        rcases List.mem_cons.mp hp with h | h
        · exact Or.inl (by simp [h])
        · rcases ih p h with h' | ⟨w, hw1, hw2⟩
          · exact Or.inl (List.mem_cons_of_mem _ h')
          · exact Or.inr ⟨w, List.mem_cons_of_mem _ hw1, hw2⟩

/-- Keys of a bumped distribution: the bumped key or an existing key. -/
theorem mem_distAdd {T : Type} [DecidableEq T] (d : Dist T) (b : State T) :
    ∀ p ∈ distAdd d b, p.1 = b ∨ ∃ v, (p.1, v) ∈ d := by
  intro p hp
  rw [distAdd] at hp
  by_cases hb : (alookup d b).isSome = true
  · rw [if_pos hb] at hp
    rcases mem_aupdate d b _ p hp with h | ⟨v, hv, _⟩
    · exact Or.inr ⟨p.2, h⟩
    · exact Or.inr ⟨v, hv⟩
  · rw [if_neg hb] at hp
    rcases List.mem_append.mp hp with h | h
    · exact Or.inr ⟨p.2, h⟩
    · left
      have : p = (b, 1) := by simpa using h
      rw [this]

/-- Counts of a bumped distribution stay positive. -/
theorem mem_distAdd_pos {T : Type} [DecidableEq T] (d : Dist T) (b : State T)
    (hd : ∀ p ∈ d, 0 < p.2) : ∀ p ∈ distAdd d b, 0 < p.2 := by
  intro p hp
  rw [distAdd] at hp
  by_cases hb : (alookup d b).isSome = true
  · rw [if_pos hb] at hp
    rcases mem_aupdate d b _ p hp with h | ⟨v, _, hw⟩
    · exact hd p h
    · rw [hw]
      omega
  · rw [if_neg hb] at hp
    rcases List.mem_append.mp hp with h | h
    · exact hd p h
    · have : p = (b, 1) := by simpa using h
      rw [this]
      exact Nat.one_pos

/-- The recorded count after a bump: the bumped pair goes up by one, every
other count is unchanged. -/
theorem alookup_distAdd {T : Type} [DecidableEq T] (d : Dist T) (t b : State T) :
    alookup (distAdd d t) b =
      if t = b then some ((alookup d b).getD 0 + 1) else alookup d b := by
  rw [distAdd]
  by_cases hp : (alookup d t).isSome = true
  · rw [if_pos hp, alookup_aupdate]
    by_cases htb : t = b
    · subst htb
      obtain ⟨v, hv⟩ := Option.isSome_iff_exists.mp hp
      simp [hv]
    · rw [if_neg htb, if_neg htb]
  · have hnone : alookup d t = none := Option.not_isSome_iff_eq_none.mp (by simpa using hp)
    rw [if_neg hp]
    by_cases htb : t = b
    · subst htb
      rw [alookup_append_of_none d _ t hnone, hnone]
      simp [alookup]
    · by_cases hb : (alookup d b).isSome = true
      · rw [if_neg htb, alookup_append_of_isSome d _ b hb]
      · have hbnone : alookup d b = none := Option.not_isSome_iff_eq_none.mp (by simpa using hb)
        rw [if_neg htb, alookup_append_of_none d _ b hbnone, hbnone]
        simp [alookup, htb]

/-! ### Feed-phase lemmas -/

theorem ensureStep_isSome_mono {T : Type} [DecidableEq T] (c : ChainMap T) (t : T) (s : State T)
    (h : (alookup c s).isSome = true) : (alookup (ensureStep c t) s).isSome = true := by
  rw [ensureStep]
  by_cases hp : (alookup c (some t)).isSome = true
  · rwa [if_pos hp]
  · rw [if_neg hp, alookup_append_of_isSome c _ s h]
    exact h

theorem ensurePhase_isSome_mono {T : Type} [DecidableEq T] (tokens : List T) :
    ∀ (c : ChainMap T) (s : State T), (alookup c s).isSome = true →
      (alookup (ensurePhase c tokens) s).isSome = true := by
  induction tokens with
  | nil => intro c s h; exact h
  | cons t rest ih =>
      intro c s h
      exact ih (ensureStep c t) s (ensureStep_isSome_mono c t s h)

theorem ensureStep_isSome_self {T : Type} [DecidableEq T] (c : ChainMap T) (t : T) :
    (alookup (ensureStep c t) (some t)).isSome = true := by
  rw [ensureStep]
  by_cases hp : (alookup c (some t)).isSome = true
  · rwa [if_pos hp]
  · rw [if_neg hp,
      alookup_append_of_none c _ (some t) (Option.not_isSome_iff_eq_none.mp (by simpa using hp))]
    simp [alookup]

theorem ensurePhase_isSome_mem {T : Type} [DecidableEq T] (tokens : List T) :
    ∀ (c : ChainMap T) (t : T), t ∈ tokens →
      (alookup (ensurePhase c tokens) (some t)).isSome = true := by
  induction tokens with
  | nil => intro c t h; exact absurd h (List.not_mem_nil t)
  | cons t' rest ih =>
      intro c t h
      rcases List.mem_cons.mp h with h | h
      · subst h
        exact ensurePhase_isSome_mono rest (ensureStep c t) (some t)
          (ensureStep_isSome_self c t)
      · exact ih (ensureStep c t') t h

theorem ensureStep_lookup_cases {T : Type} [DecidableEq T] (c : ChainMap T) (t : T)
    (s : State T) (d : Dist T) (h : alookup (ensureStep c t) s = some d) :
    alookup c s = some d ∨ d = [] := by
  rw [ensureStep] at h
  by_cases hp : (alookup c (some t)).isSome = true
  · rw [if_pos hp] at h
    exact Or.inl h
  · rw [if_neg hp] at h
    by_cases hs : (alookup c s).isSome = true
    · rw [alookup_append_of_isSome c _ s hs] at h
      exact Or.inl h
    · rw [alookup_append_of_none c _ s
        (Option.not_isSome_iff_eq_none.mp (by simpa using hs))] at h
      right
      by_cases hts : (some t : State T) = s
      · rw [alookup, if_pos hts] at h
        exact (Option.some.inj h).symm
      · rw [alookup, if_neg hts] at h
        exact absurd h (by simp [alookup])

/-! ### Invariants of reachable chains -/

/-- The table invariant of the spec: the start sentinel is registered, and
every state that is a key of some distribution is itself registered. -/
def TableInv {T : Type} [DecidableEq T] (c : ChainMap T) : Prop :=
  (alookup c none).isSome = true ∧
    ∀ s d, alookup c s = some d → ∀ p ∈ d, (alookup c p.1).isSome = true

/-- Every count stored in any distribution is positive. -/
def PosInv {T : Type} [DecidableEq T] (c : ChainMap T) : Prop :=
  ∀ s d, alookup c s = some d → ∀ p ∈ d, 0 < p.2

theorem ensureStep_tableInv {T : Type} [DecidableEq T] (c : ChainMap T) (t : T)
    (h : TableInv c) : TableInv (ensureStep c t) := by
  refine ⟨ensureStep_isSome_mono c t none h.1, fun s d hd p hp => ?_⟩
  rcases ensureStep_lookup_cases c t s d hd with hc | hnil
  · exact ensureStep_isSome_mono c t p.1 (h.2 s d hc p hp)
  · subst hnil
    exact absurd hp (List.not_mem_nil p)

theorem ensurePhase_tableInv {T : Type} [DecidableEq T] (tokens : List T) :
    ∀ c : ChainMap T, TableInv c → TableInv (ensurePhase c tokens) := by
  induction tokens with
  | nil => intro c h; exact h
  | cons t rest ih => intro c h; exact ih (ensureStep c t) (ensureStep_tableInv c t h)

theorem recordTransition_tableInv {T : Type} [DecidableEq T] (c : ChainMap T) (a b : State T)
    (hb : (alookup c b).isSome = true) (h : TableInv c) : TableInv (recordTransition c a b) := by
  constructor
  · rw [recordTransition, isSome_alookup_aupdate]
    exact h.1
  · intro s d hd p hp
    rw [recordTransition, isSome_alookup_aupdate]
    rw [recordTransition, alookup_aupdate] at hd
    by_cases has : a = s
    · rw [if_pos has] at hd
      cases hc : alookup c a with
      | none => rw [hc] at hd; exact absurd hd (by simp)
      | some d0 =>
          rw [hc] at hd
          have hdd : d = distAdd d0 b := (Option.some.inj hd).symm
          subst hdd
          rcases mem_distAdd d0 b p hp with h1 | ⟨v, hv⟩
          · rw [h1]
            exact hb
          · exact h.2 a d0 hc (p.1, v) hv
    · rw [if_neg has] at hd
      exact h.2 s d hd p hp

theorem recPhase_tableInv {T : Type} [DecidableEq T] (ps : List (State T × State T)) :
    ∀ c : ChainMap T, TableInv c → (∀ p ∈ ps, (alookup c p.2).isSome = true) →
      TableInv (recPhase c ps) := by
  induction ps with
  | nil => intro c h _; exact h
  | cons p rest ih =>
      intro c h hps
      have hstep : recPhase c (p :: rest) = recPhase (recordTransition c p.1 p.2) rest := by
        simp [recPhase]
      rw [hstep]
      refine ih (recordTransition c p.1 p.2)
        (recordTransition_tableInv c p.1 p.2 (hps p (List.mem_cons_self p rest)) h)
        (fun q hq => ?_)
      rw [recordTransition, isSome_alookup_aupdate]
      exact hps q (List.mem_cons_of_mem p hq)

/-- Every second component of a window of the augmented sequence is
registered after the interning pass. -/
theorem pairs_snd_isSome {T : Type} [DecidableEq T] (c : ChainMap T) (tokens : List T)
    (h : (alookup c none).isSome = true) :
    ∀ p ∈ (augmented tokens).zip (augmented tokens).tail,
      (alookup (ensurePhase c tokens) p.2).isSome = true := by
  intro p hp
  obtain ⟨x, y⟩ := p
  have hy : y ∈ (augmented tokens).tail := (List.of_mem_zip hp).2
  have hy' : y ∈ tokens.map some ++ [none] := by
    simpa [augmented] using hy
  rcases List.mem_append.mp hy' with h1 | h1
  · obtain ⟨t, ht, rfl⟩ := List.mem_map.mp h1
    exact ensurePhase_isSome_mem tokens c t ht
  · have hyn : y = none := by simpa using h1
    subst hyn
    exact ensurePhase_isSome_mono tokens c none h

theorem feed_tableInv {T : Type} [DecidableEq T] (c : ChainMap T) (tokens : List T)
    (h : TableInv c) : TableInv (feed c tokens) := by
  by_cases he : tokens.isEmpty
  · rwa [feed, if_pos he]
  · rw [feed, if_neg he]
    exact recPhase_tableInv _ _ (ensurePhase_tableInv tokens c h)
      (pairs_snd_isSome c tokens h.1)

theorem chainNew_tableInv {T : Type} [DecidableEq T] : TableInv (chainNew T) := by
  constructor
  · simp [chainNew, alookup]
  · intro s d hd p hp
    by_cases hs : (none : State T) = s
    · rw [chainNew, alookup, if_pos hs] at hd
      have hde : d = [] := (Option.some.inj hd).symm
      subst hde
      exact absurd hp (List.not_mem_nil p)
    · rw [chainNew, alookup, if_neg hs] at hd
      exact absurd hd (by simp [alookup])

/-- Every chain reachable through the public contract satisfies the table
invariant. -/
theorem reachable_tableInv {T : Type} [DecidableEq T] {c : ChainMap T} (h : Reachable c) :
    TableInv c := by
  induction h with
  | new => exact chainNew_tableInv
  | feed tokens _ ih => exact feed_tableInv _ tokens ih

theorem ensureStep_posInv {T : Type} [DecidableEq T] (c : ChainMap T) (t : T)
    (h : PosInv c) : PosInv (ensureStep c t) := by
  intro s d hd p hp
  rcases ensureStep_lookup_cases c t s d hd with hc | hnil
  · exact h s d hc p hp
  · subst hnil
    exact absurd hp (List.not_mem_nil p)

theorem ensurePhase_posInv {T : Type} [DecidableEq T] (tokens : List T) :
    ∀ c : ChainMap T, PosInv c → PosInv (ensurePhase c tokens) := by
  induction tokens with
  | nil => intro c h; exact h
  | cons t rest ih => intro c h; exact ih (ensureStep c t) (ensureStep_posInv c t h)

theorem recordTransition_posInv {T : Type} [DecidableEq T] (c : ChainMap T) (a b : State T)
    (h : PosInv c) : PosInv (recordTransition c a b) := by
  intro s d hd p hp
  rw [recordTransition, alookup_aupdate] at hd
  by_cases has : a = s
  · rw [if_pos has] at hd
    cases hc : alookup c a with
    | none => rw [hc] at hd; exact absurd hd (by simp)
    | some d0 =>
        rw [hc] at hd
        have hdd : d = distAdd d0 b := (Option.some.inj hd).symm
        subst hdd
        exact mem_distAdd_pos d0 b (h a d0 hc) p hp
  · rw [if_neg has] at hd
    exact h s d hd p hp

theorem recPhase_posInv {T : Type} [DecidableEq T] (ps : List (State T × State T)) :
    ∀ c : ChainMap T, PosInv c → PosInv (recPhase c ps) := by
  induction ps with
  | nil => intro c h; exact h
  | cons p rest ih =>
      intro c h
      have hstep : recPhase c (p :: rest) = recPhase (recordTransition c p.1 p.2) rest := by
        simp [recPhase]
      rw [hstep]
      exact ih (recordTransition c p.1 p.2) (recordTransition_posInv c p.1 p.2 h)

theorem feed_posInv {T : Type} [DecidableEq T] (c : ChainMap T) (tokens : List T)
    (h : PosInv c) : PosInv (feed c tokens) := by
  by_cases he : tokens.isEmpty
  · rwa [feed, if_pos he]
  · rw [feed, if_neg he]
    exact recPhase_posInv _ _ (ensurePhase_posInv tokens c h)

/-- Every chain reachable through the public contract stores only positive
counts. -/
theorem reachable_posInv {T : Type} [DecidableEq T] {c : ChainMap T} (h : Reachable c) :
    PosInv c := by
  induction h with
  | new =>
      intro s d hd p hp
      by_cases hs : (none : State T) = s
      · rw [chainNew, alookup, if_pos hs] at hd
        have hde : d = [] := (Option.some.inj hd).symm
        subst hde
        exact absurd hp (List.not_mem_nil p)
      · rw [chainNew, alookup, if_neg hs] at hd
        exact absurd hd (by simp [alookup])
  | feed tokens _ ih => exact feed_posInv _ tokens ih

/-! ### Claim theorems -/

/-- C5: every chain reachable through the public contract (`new` plus any
sequence of `feed` calls) registers the start sentinel and every state that
appears as a key of any distribution, so the `UnknownState` map-index panic
has a registered key at every lookup the engine performs. -/
theorem C5_reachable_invariant {T : Type} [DecidableEq T] (c : ChainMap T) (h : Reachable c) :
    (alookup c none).isSome = true ∧
      ∀ s d, alookup c s = some d → ∀ p ∈ d, (alookup c p.1).isSome = true :=
  reachable_tableInv h

/-- Witness for C5 on the test chain. -/
theorem C5_reachable_invariant_witness :
    (alookup chainA none).isSome = true ∧
      ∀ s d, alookup chainA s = some d → ∀ p ∈ d, (alookup chainA p.1).isSome = true :=
  C5_reachable_invariant chainA
    (Reachable.feed [5, 12] (Reachable.feed [3, 5, 10] Reachable.new))

/-- C7: on every reachable chain, `is_empty` is true exactly when the start
sentinel's distribution has zero total count. -/
theorem C7_is_empty_iff_zero_total {T : Type} [DecidableEq T] (c : ChainMap T)
    (h : Reachable c) :
    is_empty c = true ↔ distTotal ((alookup c none).getD []) = 0 := by
  obtain ⟨d, hd⟩ := Option.isSome_iff_exists.mp (reachable_tableInv h).1
  rw [is_empty, hd]
  simp only [Option.getD_some]
  constructor
  · intro he
    have hde : d = [] := by simpa using he
    subst hde
    rfl
  · intro ht
    cases d with
    | nil => rfl
    | cons q rest =>
        exfalso
        obtain ⟨k, v⟩ := q
        have hpos := reachable_posInv h none ((k, v) :: rest) hd (k, v)
          (List.mem_cons_self _ _)
        rw [distTotal_cons] at ht
        simp only at hpos
        omega

/-- Witness for C7 on the test chain (not empty, sentinel total 2). -/
theorem C7_is_empty_iff_zero_total_witness :
    is_empty chainA = true ↔ distTotal ((alookup chainA none).getD []) = 0 :=
  C7_is_empty_iff_zero_total chainA
    (Reachable.feed [5, 12] (Reachable.feed [3, 5, 10] Reachable.new))

/-- Every token a completed walk emits is a registered state of the chain. -/
theorem genLoop_ok_registered {T : Type} [DecidableEq T] (draws : Nat → Nat) (c : ChainMap T)
    (hInv : TableInv c) :
    ∀ (fl i : Nat) (curs : State T) (acc l : List T),
      (∀ t ∈ acc, (alookup c (some t)).isSome = true) →
      genLoop fl draws i c curs acc = GenRes.ok l →
      ∀ t ∈ l, (alookup c (some t)).isSome = true := by
  intro fl
  induction fl with
  | zero =>
      intro i curs acc l _ h
      exact absurd h (by simp [genLoop])
  | succ n ih =>
      intro i curs acc l hacc h
      cases hd : alookup c curs with
      | none =>
          rw [genLoop_succ_none n draws i c curs acc hd] at h
          exact absurd h (by simp)
      | some d =>
          rw [genLoop_succ_eq n draws i c curs acc d hd] at h
          cases hn : statesNext d (draws i) with
          | error e =>
              rw [hn] at h
              exact absurd h (by simp)
          | ok s' =>
              cases s' with
              | none =>
                  rw [hn] at h
                  have hal : acc = l := GenRes.ok.inj h
                  subst hal
                  exact hacc
              | some t =>
                  rw [hn] at h
                  obtain ⟨v, hv⟩ := statesNext_mem d (draws i) (some t) hn
                  have ht : (alookup c (some t)).isSome = true :=
                    hInv.2 curs d hd (some t, v) hv
                  refine ih (i + 1) (some t) (acc ++ [t]) l (fun u hu => ?_) h
                  rcases List.mem_append.mp hu with h1 | h1
                  · exact hacc u h1
                  · have hut : u = t := by simpa using h1
                    subst hut
                    exact ht

/-- C9: on a reachable chain, every element of a completed `generate()` walk
is a registered (fed) token — in particular the sentinel, which is not a
token at all, never appears: the loop stops on it instead of pushing it. -/
theorem C9_generate_elements_fed {T : Type} [DecidableEq T] (c : ChainMap T) (h : Reachable c)
    (fuel : Nat) (draws : Nat → Nat) (l : List T)
    (hg : generate c fuel draws = GenRes.ok l) :
    ∀ t ∈ l, (alookup c (some t)).isSome = true :=
  genLoop_ok_registered draws c (reachable_tableInv h) fuel 0 none [] l
    (fun t ht => absurd ht (List.not_mem_nil t)) hg

/-- Witness for C9 on the test chain and the all-zeros draw stream. -/
theorem C9_generate_elements_fed_witness :
    (alookup chainA (some 3)).isSome = true :=
  C9_generate_elements_fed chainA
    (Reachable.feed [5, 12] (Reachable.feed [3, 5, 10] Reachable.new))
    5 (fun _ => 0) [3, 5, 10] (by decide) 3 (by decide)

/-- C2: the claim says a zero-total distribution ends the walk without error,
so `generate()` on a never-fed chain returns the empty sequence.  The code
has no such check: on the fresh chain the start sentinel's distribution is
empty, `States::next` computes `sum == 0`, and `rng.gen_range(0, 0)` panics
(its `low < high` assertion fails); the walk crashes instead of returning
`[]`, for every positive fuel and every draw stream. -/
theorem C2_generate_empty_chain_crashes (fl : Nat) (draws : Nat → Nat) :
    generate (chainNew Nat) (fl + 1) draws = GenRes.crash := by
  simp [generate, genLoop, chainNew, alookup, statesNext, distTotal]

/-- C3: after `feed([3,5,10])` then `feed([5,12])` on a new chain, every
completed `generate()` walk — any fuel, any sequence of random draws —
returns one of `[3,5,10]`, `[3,5,12]`, `[5,10]`, `[5,12]`. -/
theorem C3_generate_chainA_cases (fuel : Nat) (draws : Nat → Nat) (l : List Nat)
    (h : generate chainA fuel draws = GenRes.ok l) :
    l = [3, 5, 10] ∨ l = [3, 5, 12] ∨ l = [5, 10] ∨ l = [5, 12] := by
  rw [generate] at h
  rcases chainA_walk_start fuel draws 0 [] with h' | h' | h' | h' | h' <;> rw [h'] at h
  · exact absurd h (by simp)
  · exact Or.inl (by simpa using (GenRes.ok.inj h).symm)
  · exact Or.inr (Or.inl (by simpa using (GenRes.ok.inj h).symm))
  · exact Or.inr (Or.inr (Or.inl (by simpa using (GenRes.ok.inj h).symm)))
  · exact Or.inr (Or.inr (Or.inr (by simpa using (GenRes.ok.inj h).symm)))

/-- Witness for C3 at fuel 5 and the all-zeros draw stream, which completes
the walk `[3,5,10]`. -/
theorem C3_generate_chainA_cases_witness :
    ([3, 5, 10] : List Nat) = [3, 5, 10] ∨ ([3, 5, 10] : List Nat) = [3, 5, 12] ∨
      ([3, 5, 10] : List Nat) = [5, 10] ∨ ([3, 5, 10] : List Nat) = [5, 12] :=
  C3_generate_chainA_cases 5 (fun _ => 0) [3, 5, 10] (by decide)

/-- C4: `generate_from_token(x)` returns the empty sequence exactly when
`Some x` is not a key of the transition table (the lookup inserts nothing),
as an ordinary `GenRes.ok` value rather than a crash; a non-empty result
starts with `x`. -/
theorem C4_generate_from_token_spec {T : Type} [DecidableEq T] (c : ChainMap T) (fuel : Nat)
    (draws : Nat → Nat) (x : T) :
    (generate_from_token c fuel draws x = GenRes.ok [] ↔ alookup c (some x) = none) ∧
      ∀ l, generate_from_token c fuel draws x = GenRes.ok l → l ≠ [] → l.head? = some x := by
  by_cases hx : (alookup c (some x)).isSome = true
  · rw [generate_from_token, if_pos hx]
    constructor
    · constructor
      · intro h
        obtain ⟨t, ht⟩ := genLoop_ok_prefix fuel draws 0 (some x) [x] [] c h
        exact absurd ht (by simp)
      · intro h
        rw [h] at hx
        simp at hx
    · intro l h _
      obtain ⟨t, ht⟩ := genLoop_ok_prefix fuel draws 0 (some x) [x] l c h
      rw [ht]
      rfl
  · have hnone : alookup c (some x) = none := Option.not_isSome_iff_eq_none.mp (by simpa using hx)
    rw [generate_from_token, if_neg hx]
    refine ⟨⟨fun _ => hnone, fun _ => rfl⟩, fun l h hne => ?_⟩
    exact absurd (GenRes.ok.inj h).symm hne

/-- Witness for C4 on the test chain with token 5, fuel 5 and the all-zeros
draw stream, whose walk completes as `[5, 10]`. -/
theorem C4_generate_from_token_spec_witness : ([5, 10] : List Nat).head? = some 5 :=
  (C4_generate_from_token_spec chainA 5 (fun _ => 0) 5).2 [5, 10] (by decide) (by decide)

/-- C6: for a distribution of positive total and a draw `r` below the total,
the cumulative scan returns the key of the first entry (in iteration order)
whose cumulative count sum exceeds `r` — such an entry exists, so the
`unreachable!` branch of `States::next` is never taken: every sample under
the precondition is an ordinary `Except.ok`. -/
theorem C6_sampler_scan {T : Type} [DecidableEq T] (d : Dist T) (r : Nat)
    (h : r < distTotal d) :
    (∃ i, ∃ hi : i < d.length, scanFrom d 0 r = some (d.get ⟨i, hi⟩).1 ∧
        r < prefixTotal d (i + 1) ∧ ∀ j, j < i → prefixTotal d (j + 1) ≤ r) ∧
      ∀ r', ∃ k, statesNext d r' = Except.ok k := by
  have htot : 0 < distTotal d := by omega
  constructor
  · obtain ⟨i, hi, h1, h2, h3⟩ := scanFrom_spec d 0 r (Nat.zero_le r) (by omega)
    exact ⟨i, hi, h1, by simpa using h2, fun j hj => by simpa using h3 j hj⟩
  · intro r'
    have hmod : r' % distTotal d < distTotal d := Nat.mod_lt r' htot
    obtain ⟨i, hi, h1, _, _⟩ := scanFrom_spec d 0 (r' % distTotal d) (Nat.zero_le _) (by omega)
    refine ⟨(d.get ⟨i, hi⟩).1, ?_⟩
    simp only [statesNext]
    rw [if_neg (by omega), h1]

/-- Witness for C6 on the sentinel distribution of the test chain with
draw 1, which selects its second entry. -/
theorem C6_sampler_scan_witness :
    (∃ i, ∃ hi : i < ([(some 3, 1), (some 5, 1)] : Dist Nat).length,
        scanFrom ([(some 3, 1), (some 5, 1)] : Dist Nat) 0 1 =
          some (([(some 3, 1), (some 5, 1)] : Dist Nat).get ⟨i, hi⟩).1 ∧
        1 < prefixTotal ([(some 3, 1), (some 5, 1)] : Dist Nat) (i + 1) ∧
        ∀ j, j < i → prefixTotal ([(some 3, 1), (some 5, 1)] : Dist Nat) (j + 1) ≤ 1) ∧
      ∀ r', ∃ k, statesNext ([(some 3, 1), (some 5, 1)] : Dist Nat) r' = Except.ok k :=
  C6_sampler_scan ([(some 3, 1), (some 5, 1)] : Dist Nat) 1 (by decide)

/-- C8: feeding the empty token sequence is a no-op — the transition table is
returned unchanged, and `is_empty` is preserved. -/
theorem C8_feed_nil_noop {T : Type} [DecidableEq T] (c : ChainMap T) :
    feed c [] = c ∧ (is_empty c = true → is_empty (feed c []) = true) := by
  refine ⟨rfl, fun h => ?_⟩
  simpa [feed] using h

/-- Witness for C8 on the fresh chain, whose `is_empty` is `true`. -/
theorem C8_feed_nil_noop_witness : is_empty (feed (chainNew Nat) []) = true :=
  (C8_feed_nil_noop (chainNew Nat)).2 (by decide)

theorem ensureStep_transCount {T : Type} [DecidableEq T] (c : ChainMap T) (t : T)
    (a b : State T) : transCount (ensureStep c t) a b = transCount c a b := by
  rw [ensureStep]
  by_cases hp : (alookup c (some t)).isSome = true
  · rw [if_pos hp]
  · rw [if_neg hp]
    unfold transCount
    by_cases ha : (alookup c a).isSome = true
    · rw [alookup_append_of_isSome c _ a ha]
    · have hnone : alookup c a = none := Option.not_isSome_iff_eq_none.mp (by simpa using ha)
      rw [alookup_append_of_none c _ a hnone, hnone]
      by_cases hta : (some t : State T) = a
      · rw [alookup, if_pos hta]
        simp [alookup]
      · rw [alookup, if_neg hta]
        rfl

theorem ensurePhase_transCount {T : Type} [DecidableEq T] (tokens : List T) :
    ∀ (c : ChainMap T) (a b : State T),
      transCount (ensurePhase c tokens) a b = transCount c a b := by
  induction tokens with
  | nil => intro c a b; rfl
  | cons t rest ih =>
      intro c a b
      rw [show ensurePhase c (t :: rest) = ensurePhase (ensureStep c t) rest from rfl,
        ih (ensureStep c t) a b, ensureStep_transCount]

theorem recordTransition_transCount {T : Type} [DecidableEq T] (c : ChainMap T)
    (f0 t : State T) (hf : (alookup c f0).isSome = true) (a b : State T) :
    transCount (recordTransition c f0 t) a b =
      transCount c a b + (if f0 = a ∧ t = b then 1 else 0) := by
  unfold transCount recordTransition
  rw [alookup_aupdate]
  by_cases hfa : f0 = a
  · rw [if_pos hfa]
    obtain ⟨d, hd⟩ := Option.isSome_iff_exists.mp hf
    have hda : alookup c a = some d := hfa ▸ hd
    rw [hd, hda]
    show (alookup (distAdd d t) b).getD 0 =
      (alookup d b).getD 0 + if f0 = a ∧ t = b then 1 else 0
    rw [alookup_distAdd]
    by_cases htb : t = b
    · rw [if_pos htb, if_pos ⟨hfa, htb⟩]
      simp
    · rw [if_neg htb, if_neg (fun hand => htb hand.2)]
      simp
  · rw [if_neg hfa, if_neg (fun hand => hfa hand.1)]
    simp

theorem recPhase_isSome {T : Type} [DecidableEq T] (ps : List (State T × State T)) :
    ∀ (c : ChainMap T) (s : State T),
      (alookup (recPhase c ps) s).isSome = (alookup c s).isSome := by
  induction ps with
  | nil => intro c s; rfl
  | cons p rest ih =>
      intro c s
      have hstep : recPhase c (p :: rest) = recPhase (recordTransition c p.1 p.2) rest := by
        simp [recPhase]
      rw [hstep, ih, recordTransition, isSome_alookup_aupdate]

theorem recPhase_transCount {T : Type} [DecidableEq T] (a b : State T) :
    ∀ (ps : List (State T × State T)) (c : ChainMap T),
      (∀ p ∈ ps, (alookup c p.1).isSome = true) →
      transCount (recPhase c ps) a b =
        transCount c a b +
          ps.countP (fun p => decide (p.1 = a) && decide (p.2 = b)) := by
  intro ps
  induction ps with
  | nil => intro c _; simp [recPhase]
  | cons p rest ih =>
      intro c hps
      have hstep : recPhase c (p :: rest) = recPhase (recordTransition c p.1 p.2) rest := by
        simp [recPhase]
      have hrest : ∀ q ∈ rest, (alookup (recordTransition c p.1 p.2) q.1).isSome = true := by
        intro q hq
        rw [recordTransition, isSome_alookup_aupdate]
        exact hps q (List.mem_cons_of_mem p hq)
      rw [hstep, ih (recordTransition c p.1 p.2) hrest,
        recordTransition_transCount c p.1 p.2 (hps p (List.mem_cons_self p rest)) a b,
        List.countP_cons]
      by_cases h1 : p.1 = a ∧ p.2 = b
      · have h2 : (decide (p.1 = a) && decide (p.2 = b)) = true := by simp [h1.1, h1.2]
        rw [if_pos h1, h2, if_pos rfl]
        omega
      · have h2 : (decide (p.1 = a) && decide (p.2 = b)) = false := by
          rcases Decidable.not_and_iff_or_not.mp h1 with h | h <;> simp [h]
        rw [if_neg h1, h2, if_neg Bool.false_ne_true]
        omega

/-- Every first component of a window of the augmented sequence is
registered after the interning pass. -/
theorem pairs_fst_isSome {T : Type} [DecidableEq T] (c : ChainMap T) (tokens : List T)
    (h : (alookup c none).isSome = true) :
    ∀ p ∈ (augmented tokens).zip (augmented tokens).tail,
      (alookup (ensurePhase c tokens) p.1).isSome = true := by
  intro p hp
  obtain ⟨x, y⟩ := p
  have hx : x ∈ augmented tokens := (List.of_mem_zip hp).1
  rw [augmented] at hx
  rcases List.mem_cons.mp hx with h1 | h1
  · subst h1
    exact ensurePhase_isSome_mono tokens c none h
  · rcases List.mem_append.mp h1 with h2 | h2
    · obtain ⟨t, ht, rfl⟩ := List.mem_map.mp h2
      exact ensurePhase_isSome_mem tokens c t ht
    · have hxn : x = none := by simpa using h2
      subst hxn
      exact ensurePhase_isSome_mono tokens c none h

theorem feed_isSome_mono {T : Type} [DecidableEq T] (c : ChainMap T) (tokens : List T)
    (s : State T) (h : (alookup c s).isSome = true) :
    (alookup (feed c tokens) s).isSome = true := by
  by_cases he : tokens.isEmpty
  · rwa [feed, if_pos he]
  · rw [feed, if_neg he, recPhase_isSome]
    exact ensurePhase_isSome_mono tokens c s h

/-- C1: on any chain whose table registers the start sentinel (true of every
reachable chain), feeding a non-empty sequence raises the recorded count of
every pair of states by exactly the number of occurrences of that pair among
consecutive positions of the augmented sequence `[None, t_1, ..., t_n, None]`
— so unrelated counts are untouched, and feeding the same sequence twice
adds twice that number. -/
theorem C1_feed_pair_counts {T : Type} [DecidableEq T] (c : ChainMap T) (tokens : List T)
    (hne : tokens ≠ []) (hstart : (alookup c none).isSome = true) (a b : State T) :
    transCount (feed c tokens) a b =
        transCount c a b + pairCount (augmented tokens) a b ∧
      transCount (feed (feed c tokens) tokens) a b =
        transCount c a b + 2 * pairCount (augmented tokens) a b := by
  have key : ∀ c' : ChainMap T, (alookup c' none).isSome = true →
      transCount (feed c' tokens) a b =
        transCount c' a b + pairCount (augmented tokens) a b := by
    intro c' h'
    have he : ¬tokens.isEmpty = true := by simpa [List.isEmpty_iff] using hne
    rw [feed, if_neg he,
      recPhase_transCount a b _ _ (pairs_fst_isSome c' tokens h'),
      ensurePhase_transCount]
    rfl
  refine ⟨key c hstart, ?_⟩
  rw [key (feed c tokens) (feed_isSome_mono c tokens none hstart), key c hstart]
  omega

/-- Witness for C1: feeding `[3,5,10]` into a fresh chain, checked at the
pair `(Some 3, Some 5)`. -/
theorem C1_feed_pair_counts_witness :
    (transCount (feed (chainNew Nat) [3, 5, 10]) (some 3) (some 5) =
        transCount (chainNew Nat) (some 3) (some 5) +
          pairCount (augmented [3, 5, 10]) (some 3) (some 5)) ∧
      transCount (feed (feed (chainNew Nat) [3, 5, 10]) [3, 5, 10]) (some 3) (some 5) =
        transCount (chainNew Nat) (some 3) (some 5) +
          2 * pairCount (augmented [3, 5, 10]) (some 3) (some 5) :=
  C1_feed_pair_counts (chainNew Nat) [3, 5, 10] (by decide) (by decide) (some 3) (some 5)

/-- C10: `feed_str("")` is not a no-op: splitting `""` on a space yields
`[""]`, so the empty-string token is registered as a state, `is_empty`
becomes `false`, and a generation walk can output `[""]`. -/
theorem C10_feed_str_empty_not_noop :
    splitSpace "" = [""] ∧
      feed_str (chainNew String) "" = feed (chainNew String) [""] ∧
      (alookup (feed_str (chainNew String) "") (some "")).isSome = true ∧
      is_empty (feed_str (chainNew String) "") = false ∧
      generate (feed_str (chainNew String) "") 5 (fun _ => 0) = GenRes.ok [""] := by
  refine ⟨by decide, rfl, by decide, by decide, by decide⟩

end Markov
